import Mathlib

/-!
Shallow embedding of the term-srs spaced-repetition scheduler (src/main.py).

Dates are modelled as proleptic-Gregorian triples (year, month, day); Python's
`datetime.date + timedelta(days=n)` is `addDays`, and `date.isoformat()` is
`toISO`, producing the zero-padded `YYYY-MM-DD` string that the program stores
in each card and compares lexicographically.  Python `int` is `Int`, Python
`float` is modelled exactly as `Rat`, and Python's `round` (round half to
even) is `pyRound`.
-/

namespace TermSrs

/-- Calendar date, as Python's `datetime.date`: a (year, month, day) triple. -/
structure Date where
  year : Nat
  month : Nat
  day : Nat
deriving DecidableEq, Repr

/-- Whether `year` is a leap year in the proleptic Gregorian calendar. -/
def isLeap (y : Nat) : Bool :=
  y % 4 = 0 && (y % 100 ≠ 0 || y % 400 = 0)

/-- Number of days in month `m` of year `y`. -/
def daysInMonth (y m : Nat) : Nat :=
  if m = 2 then (if isLeap y then 29 else 28)
  else if m = 4 ∨ m = 6 ∨ m = 9 ∨ m = 11 then 30
  else 31

/-- The day after `d` (with month and year rollover). -/
def nextDay (d : Date) : Date :=
  if d.day < daysInMonth d.year d.month then ⟨d.year, d.month, d.day + 1⟩
  else if d.month < 12 then ⟨d.year, d.month + 1, 1⟩
  else ⟨d.year + 1, 1, 1⟩

/-- The day before `d` (with month and year rollover). -/
def prevDay (d : Date) : Date :=
  if 1 < d.day then ⟨d.year, d.month, d.day - 1⟩
  else if 1 < d.month then ⟨d.year, d.month - 1, daysInMonth d.year (d.month - 1)⟩
  else ⟨d.year - 1, 12, 31⟩

/-- Python's `date + timedelta(days := n)` (for dates within range). -/
def addDays (d : Date) (n : Int) : Date :=
  if 0 ≤ n then nextDay^[n.toNat] d else prevDay^[(-n).toNat] d

/-- A structurally well-formed calendar triple: month and day in range. -/
def dateOk (d : Date) : Prop :=
  1 ≤ d.year ∧ 1 ≤ d.month ∧ d.month ≤ 12 ∧ 1 ≤ d.day ∧ d.day ≤ daysInMonth d.year d.month

instance (d : Date) : Decidable (dateOk d) := by
  unfold dateOk; infer_instance

/-- A well-formed date in the range Python's `datetime` supports (year 1 to
9999), so that `toISO` is the usual fixed-width `YYYY-MM-DD`. -/
def dateValid (d : Date) : Prop := dateOk d ∧ d.year ≤ 9999

instance (d : Date) : Decidable (dateValid d) := by
  unfold dateValid; infer_instance

/-- Chronological (lexicographic) order on date triples. -/
def dateLt (a b : Date) : Prop :=
  a.year < b.year ∨ (a.year = b.year ∧
    (a.month < b.month ∨ (a.month = b.month ∧ a.day < b.day)))

instance (a b : Date) : Decidable (dateLt a b) := by
  unfold dateLt; infer_instance

/-- The decimal digit character for `v % 10`. -/
def dChar (v : Nat) : Char := Char.ofNat (48 + v % 10)

/-- Fixed-width decimal numeral: the `n` low decimal digits of `v`, most
significant first (zero padded). -/
def digitsFix : Nat → Nat → List Char
  | 0, _ => []
  | n + 1, v => digitsFix n (v / 10) ++ [dChar (v % 10)]

/-- The character list of `d.isoformat()`: `YYYY-MM-DD`. -/
def isoChars (d : Date) : List Char :=
  digitsFix 4 d.year ++ '-' :: (digitsFix 2 d.month ++ '-' :: digitsFix 2 d.day)

/-- Python's `date.isoformat()`. -/
def toISO (d : Date) : String := ⟨isoChars d⟩

/-- Python 3's built-in `round` on rationals: round half to even. -/
def pyRound (x : ℚ) : ℤ :=
  let f := ⌊x⌋
  if x - f < 1/2 then f
  else if 1/2 < x - f then f + 1
  else if f % 2 = 0 then f else f + 1

/-- One flashcard record, as stored in a deck's JSON file. -/
structure Card where
  front : String
  back : String
  next_review_date : String
  repetitions : Int
  interval : Int
  ease_factor : ℚ
deriving DecidableEq, Repr

/-- Config `DEFAULT_EASE_FACTOR = 2.5`. -/
def DEFAULT_EASE_FACTOR : ℚ := 5/2

/-- Config `QUALITY_MAP`: menu key to SM-2 quality score. -/
def QUALITY_MAP : List (String × Int) :=
  [("1", 0), ("2", 3), ("3", 4), ("4", 5)]

/-- The quality scores the input loop can hand to the scheduler: exactly the
values of `QUALITY_MAP`. -/
def validScore (q : Int) : Prop := q ∈ QUALITY_MAP.map Prod.snd

instance (q : Int) : Decidable (validScore q) := by
  unfold validScore; infer_instance

/-- Scheduler core of `review_card` (src/main.py lines 50-68), with the
already-validated quality score and the current date passed in explicitly
(the prompting loop of lines 46-48 lives outside the core). -/
def review_card (card : Card) (quality : Int) (today : Date) : Card :=
  let card1 :=
    if quality < 3 then
      { card with repetitions := 0, interval := 1 }
    else
      let newInterval : Int :=
        if card.repetitions = 0 then 1
        else if card.repetitions = 1 then 6
        else pyRound ((card.interval : ℚ) * card.ease_factor)
      { card with interval := newInterval, repetitions := card.repetitions + 1 }
  let efDelta : ℚ :=
    1/10 - ((5 - quality : Int) : ℚ) * (2/25 + ((5 - quality : Int) : ℚ) * (1/50))
  let card2 := { card1 with ease_factor := max (13/10) (card1.ease_factor + efDelta) }
  { card2 with next_review_date := toISO (addDays today card2.interval) }

/-- The fresh record built by `add_new_card` (src/main.py lines 81-88). -/
def newCard (front back : String) (today : Date) : Card :=
  { front := front, back := back, next_review_date := toISO today,
    repetitions := 0, interval := 1, ease_factor := DEFAULT_EASE_FACTOR }

/-- Python's `<` on strings, on the underlying character lists: lexicographic
comparison by Unicode code point. -/
def charListLt : List Char → List Char → Bool
  | _, [] => false
  | [], _ :: _ => true
  | a :: as, b :: bs =>
      if a.toNat < b.toNat then true
      else if b.toNat < a.toNat then false
      else charListLt as bs

/-- Python's `<=` on strings, on the underlying character lists. -/
def charListLe : List Char → List Char → Bool
  | [], _ => true
  | _ :: _, [] => false
  | a :: as, b :: bs =>
      if a.toNat < b.toNat then true
      else if b.toNat < a.toNat then false
      else charListLe as bs

/-- Python's string `<` (lexicographic by code point). -/
def strLt (a b : String) : Bool := charListLt a.data b.data

/-- Python's string `<=` (lexicographic by code point). -/
def strLe (a b : String) : Bool := charListLe a.data b.data

/-- Due-card selection of `run_review_session` (src/main.py line 101):
cards whose stored ISO date string is `<=` today's ISO string. -/
def dueCards (deck : List Card) (todayIso : String) : List Card :=
  deck.filter (fun c => strLe c.next_review_date todayIso)

/-- The `(front, back)` pair used as the merge key. -/
def cardKey (c : Card) : String × String := (c.front, c.back)

/-- The dict comprehension `{ (c.front, c.back): c for c in updated_cards }`:
for a key, the last matching entry wins. -/
def cardMap (updated : List Card) (k : String × String) : Option Card :=
  updated.foldl (fun acc c => if cardKey c = k then some c else acc) none

/-- The merge loop of `run_review_session` (src/main.py lines 126-130 and
136-140): each deck slot whose key is in the lookup is replaced by the
updated record. -/
def mergeDeck (deck updated : List Card) : List Card :=
  deck.map (fun c => (cardMap updated (cardKey c)).getD c)

/-- The review loop over the presented order, stopped after as many scores as
the user supplied before completion or cancellation: the accumulated
`updated_cards` list. -/
def reviewedCards (order : List Card) (scores : List Int) (today : Date) : List Card :=
  (order.zip scores).map (fun p => review_card p.1 p.2 today)

/-- The deck that `run_review_session` saves, on both the normal path and the
cancellation path: the original deck with the reviewed cards merged in. -/
def sessionPersistedDeck (deck : List Card) (today : Date)
    (order : List Card) (scores : List Int) : List Card :=
  mergeDeck deck (reviewedCards order scores today)

/-- The scheduling invariants the spec's data model declares for a card. -/
def cardInv (c : Card) : Prop :=
  (13/10 : ℚ) ≤ c.ease_factor ∧ 1 ≤ c.interval ∧ 0 ≤ c.repetitions

instance (c : Card) : Decidable (cardInv c) := by
  unfold cardInv; infer_instance

/-! ### Scheduler lemmas -/

theorem one_le_pyRound {x : ℚ} (hx : 1 ≤ x) : 1 ≤ pyRound x := by
  have hf : (1 : ℤ) ≤ ⌊x⌋ := Int.le_floor.mpr (by exact_mod_cast hx)
  simp only [pyRound]
  split_ifs <;> omega

theorem one_le_intCast_mul {i : ℤ} {e : ℚ} (hi : 1 ≤ i) (he : 13/10 ≤ e) :
    1 ≤ (i : ℚ) * e := by
  have hi2 : (1 : ℚ) ≤ (i : ℚ) := by exact_mod_cast hi
  nlinarith

/-- One review step preserves the card invariants (for any integer score). -/
theorem reviewCard_inv (card : Card) (q : Int) (today : Date)
    (hc : cardInv card) : cardInv (review_card card q today) := by
  obtain ⟨he, hi, hr⟩ := hc
  unfold cardInv review_card
  refine ⟨?_, ?_, ?_⟩
  · simp only []
    split <;> simp [le_max_left]
  · split_ifs with h1 h2 h3
    · simp
    · simp
    · simp
    · simp only []
      exact one_le_pyRound (one_le_intCast_mul hi he)
  · split_ifs <;> simp <;> omega

/-- C1: on a successful review (valid score at least 3), the new interval is 1
when repetitions was 0, 6 when it was 1, and `round(interval * easeFactor)`
otherwise, and repetitions increases by exactly 1. -/
theorem claim1_success_schedule (card : Card) (q : Int) (today : Date)
    (hv : validScore q) (h3 : 3 ≤ q) :
    (card.repetitions = 0 → (review_card card q today).interval = 1) ∧
    (card.repetitions = 1 → (review_card card q today).interval = 6) ∧
    (card.repetitions ≠ 0 → card.repetitions ≠ 1 →
      (review_card card q today).interval = pyRound ((card.interval : ℚ) * card.ease_factor)) ∧
    (review_card card q today).repetitions = card.repetitions + 1 := by
  have hq : ¬ q < 3 := not_lt.mpr h3
  simp only [review_card, if_neg hq]
  refine ⟨?_, ?_, ?_, ?_⟩ <;> intros <;> simp [*]

/-- Witness for C1 at a concrete card with repetitions 2, interval 6, ease 2.5,
score 5. -/
theorem claim1_success_schedule_witness :
    (review_card ⟨"f", "b", "2026-10-12", 2, 6, 5/2⟩ 5 ⟨2026, 10, 12⟩).interval =
        pyRound (((6 : Int) : ℚ) * (5/2)) ∧
      (review_card ⟨"f", "b", "2026-10-12", 2, 6, 5/2⟩ 5 ⟨2026, 10, 12⟩).repetitions = 2 + 1 :=
  ⟨(claim1_success_schedule ⟨"f", "b", "2026-10-12", 2, 6, 5/2⟩ 5 ⟨2026, 10, 12⟩
      (by decide) (by decide)).2.2.1 (by decide) (by decide),
   (claim1_success_schedule ⟨"f", "b", "2026-10-12", 2, 6, 5/2⟩ 5 ⟨2026, 10, 12⟩
      (by decide) (by decide)).2.2.2⟩

/-- C2: on a failing review (valid score below 3), repetitions is reset to 0
and the interval to 1, whatever the prior state was. -/
theorem claim2_failure_reset (card : Card) (q : Int) (today : Date)
    (hv : validScore q) (h : q < 3) :
    (review_card card q today).repetitions = 0 ∧ (review_card card q today).interval = 1 := by
  constructor <;> simp only [review_card, if_pos h]

/-- Witness for C2 at a concrete card with a long streak, score 0. -/
theorem claim2_failure_reset_witness :
    (review_card ⟨"f", "b", "2026-10-12", 9, 240, 5/2⟩ 0 ⟨2026, 10, 12⟩).repetitions = 0 ∧
      (review_card ⟨"f", "b", "2026-10-12", 9, 240, 5/2⟩ 0 ⟨2026, 10, 12⟩).interval = 1 :=
  claim2_failure_reset ⟨"f", "b", "2026-10-12", 9, 240, 5/2⟩ 0 ⟨2026, 10, 12⟩
    (by decide) (by decide)

/-- C3: the invariants easeFactor at least 1.3, interval at least 1 and
repetitions at least 0 are preserved by every review step with a valid score,
and hence by any sequence of reviews. -/
theorem claim3_invariants_preserved :
    (∀ (card : Card) (q : Int) (today : Date), validScore q → cardInv card →
      cardInv (review_card card q today)) ∧
    (∀ (reviews : List (Int × Date)) (card : Card), (∀ r ∈ reviews, validScore r.1) →
      cardInv card →
      cardInv (reviews.foldl (fun c r => review_card c r.1 r.2) card)) := by
  constructor
  · exact fun card q today _ hc => reviewCard_inv card q today hc
  · intro reviews
    induction reviews with
    | nil => exact fun card _ hc => hc
    | cons r rs ih =>
        intro card hvs hc
        exact ih _ (fun s hs => hvs s (List.mem_cons_of_mem r hs))
          (reviewCard_inv card r.1 r.2 hc)

/-- Witness for C3: one concrete step and a concrete two-review sequence. -/
theorem claim3_invariants_preserved_witness :
    cardInv (review_card ⟨"f", "b", "2026-10-12", 0, 1, 5/2⟩ 5 ⟨2026, 10, 12⟩) ∧
      cardInv ([((0 : Int), (⟨2026, 10, 12⟩ : Date)), (5, ⟨2026, 10, 13⟩)].foldl
        (fun c r => review_card c r.1 r.2) ⟨"f", "b", "2026-10-12", 3, 14, 13/10⟩) :=
  ⟨claim3_invariants_preserved.1 ⟨"f", "b", "2026-10-12", 0, 1, 5/2⟩ 5 ⟨2026, 10, 12⟩
      (by decide) (by norm_num [cardInv]),
   claim3_invariants_preserved.2 [((0 : Int), (⟨2026, 10, 12⟩ : Date)), (5, ⟨2026, 10, 13⟩)]
      ⟨"f", "b", "2026-10-12", 3, 14, 13/10⟩ (by decide) (by norm_num [cardInv])⟩

/-- C8: a review never changes the card's front or back text. -/
theorem claim8_front_back_unchanged (card : Card) (q : Int) (today : Date)
    (hv : validScore q) :
    (review_card card q today).front = card.front ∧
      (review_card card q today).back = card.back := by
  simp only [review_card]
  split <;> simp

/-- Witness for C8 at a concrete card and score. -/
theorem claim8_front_back_unchanged_witness :
    (review_card ⟨"hello", "world", "2026-10-12", 1, 6, 5/2⟩ 3 ⟨2026, 10, 12⟩).front = "hello" ∧
      (review_card ⟨"hello", "world", "2026-10-12", 1, 6, 5/2⟩ 3 ⟨2026, 10, 12⟩).back = "world" :=
  claim8_front_back_unchanged ⟨"hello", "world", "2026-10-12", 1, 6, 5/2⟩ 3 ⟨2026, 10, 12⟩
    (by decide)

/-! ### Merge-protocol lemmas -/

theorem foldl_cardMap_acc {k : String × String} :
    ∀ (l : List Card) (acc : Option Card), (∀ c ∈ l, cardKey c ≠ k) →
      l.foldl (fun acc c => if cardKey c = k then some c else acc) acc = acc := by
  intro l
  induction l with
  | nil => intro acc _; rfl
  | cons c cs ih =>
      intro acc h
      have hc : cardKey c ≠ k := h c (List.mem_cons_self c cs)
      simp only [List.foldl_cons, if_neg hc]
      exact ih acc fun v hv => h v (List.mem_cons_of_mem c hv)

theorem foldl_cardMap_none {k : String × String} :
    ∀ (l : List Card) (acc : Option Card),
      l.foldl (fun acc c => if cardKey c = k then some c else acc) acc = none →
      acc = none ∧ ∀ c ∈ l, cardKey c ≠ k := by
  intro l
  induction l with
  | nil => intro acc h; exact ⟨h, by simp⟩
  | cons c cs ih =>
      intro acc h
      simp only [List.foldl_cons] at h
      obtain ⟨hstep, hrest⟩ := ih _ h
      by_cases hk : cardKey c = k
      · simp [if_pos hk] at hstep
      · simp only [if_neg hk] at hstep
        exact ⟨hstep, by
          intro v hv
          rcases List.mem_cons.mp hv with rfl | hv2
          · exact hk
          · exact hrest v hv2⟩

theorem foldl_cardMap_some {k : String × String} :
    ∀ (l : List Card) (acc : Option Card) (u : Card),
      l.foldl (fun acc c => if cardKey c = k then some c else acc) acc = some u →
      (u ∈ l ∧ cardKey u = k) ∨ acc = some u := by
  intro l
  induction l with
  | nil => intro acc u h; exact Or.inr h
  | cons c cs ih =>
      intro acc u h
      simp only [List.foldl_cons] at h
      rcases ih _ _ h with ⟨hm, hk⟩ | hstep
      · exact Or.inl ⟨List.mem_cons_of_mem c hm, hk⟩
      · by_cases hk : cardKey c = k
        · simp only [if_pos hk, Option.some.injEq] at hstep
          exact Or.inl ⟨by simp [hstep], hstep ▸ hk⟩
        · simp only [if_neg hk] at hstep
          exact Or.inr hstep

theorem foldl_cardMap_unique {k : String × String} :
    ∀ (l : List Card) (acc : Option Card) (u : Card), u ∈ l → cardKey u = k →
      (∀ v ∈ l, cardKey v = k → v = u) →
      l.foldl (fun acc c => if cardKey c = k then some c else acc) acc = some u := by
  intro l
  induction l with
  | nil => intro acc u h; cases h
  | cons c cs ih =>
      intro acc u hu hk huniq
      simp only [List.foldl_cons]
      by_cases hmem : u ∈ cs
      · exact ih _ u hmem hk fun v hv hvk => huniq v (List.mem_cons_of_mem c hv) hvk
      · have hcu : c = u := by
          rcases List.mem_cons.mp hu with rfl | h2
          · rfl
          · exact absurd h2 hmem
        subst hcu
        rw [if_pos hk]
        exact foldl_cardMap_acc cs (some c) fun v hv hvk =>
          hmem ((huniq v (List.mem_cons_of_mem c hv) hvk) ▸ hv)

theorem cardMap_none_iff (l : List Card) (k : String × String) :
    cardMap l k = none ↔ ∀ c ∈ l, cardKey c ≠ k := by
  constructor
  · intro h; exact (foldl_cardMap_none l none h).2
  · intro h; exact foldl_cardMap_acc l none h

theorem cardMap_some_mem {l : List Card} {k : String × String} {u : Card}
    (h : cardMap l k = some u) : u ∈ l ∧ cardKey u = k := by
  rcases foldl_cardMap_some l none u h with h2 | h2
  · exact h2
  · cases h2

theorem cardMap_eq_some_of_unique {l : List Card} {k : String × String} {u : Card}
    (hu : u ∈ l) (hk : cardKey u = k) (huniq : ∀ v ∈ l, cardKey v = k → v = u) :
    cardMap l k = some u :=
  foldl_cardMap_unique l none u hu hk huniq

theorem cardMap_isSome {l : List Card} {k : String × String} {u : Card}
    (hu : u ∈ l) (hk : cardKey u = k) :
    ∃ w, cardMap l k = some w ∧ w ∈ l ∧ cardKey w = k := by
  rcases h : cardMap l k with _ | w
  · exact absurd hk ((cardMap_none_iff l k).mp h u hu)
  · exact ⟨w, rfl, cardMap_some_mem h⟩

/-- A review step never changes the merge key of a card. -/
theorem reviewCard_key (card : Card) (q : Int) (today : Date) :
    cardKey (review_card card q today) = cardKey card := by
  unfold cardKey review_card
  split <;> simp

theorem zip_nodup_fst {α β : Type} :
    ∀ (l : List α) (s : List β), l.Nodup → ∀ p q : α × β,
      p ∈ l.zip s → q ∈ l.zip s → p.1 = q.1 → p = q := by
  intro l
  induction l with
  | nil => intro s _ p q hp; simp [List.zip] at hp
  | cons a as ih =>
      intro s hnd p q hp hq hfst
      cases s with
      | nil => simp [List.zip] at hp
      | cons x xs =>
          simp only [List.zip_cons_cons, List.mem_cons] at hp hq
          rcases hp with rfl | hp2 <;> rcases hq with rfl | hq2
          · rfl
          · exfalso
            have hq1 : q.1 ∈ as := (List.of_mem_zip hq2).1
            have ha : q.1 = a := by simpa using hfst.symm
            rw [ha] at hq1
            exact (List.nodup_cons.mp hnd).1 hq1
          · exfalso
            have hp1 : p.1 ∈ as := (List.of_mem_zip hp2).1
            have ha : p.1 = a := by simpa using hfst
            rw [ha] at hp1
            exact (List.nodup_cons.mp hnd).1 hp1
          · exact ih xs (List.nodup_cons.mp hnd).2 p q hp2 hq2 hfst

/-- C6: merging the same updated-cards set into a deck twice yields the same
deck as merging it once. -/
theorem claim6_merge_idempotent (deck updated : List Card) :
    mergeDeck (mergeDeck deck updated) updated = mergeDeck deck updated := by
  unfold mergeDeck
  rw [List.map_map]
  apply List.map_congr_left
  intro c _
  rcases h : cardMap updated (cardKey c) with _ | u
  · simp [Function.comp_apply, h]
  · have h2 := cardMap_some_mem h
    simp [Function.comp_apply, h, h2.2]

/-- C10: when some reviewed card shares its (front, back) key with two deck
slots, the merge replaces both slots with one and the same updated record. -/
theorem claim10_duplicate_keys_merge (deck order : List Card) (scores : List Int)
    (today : Date) (i j : ℕ) (ci cj : Card)
    (hi : deck[i]? = some ci) (hj : deck[j]? = some cj)
    (hkey : cardKey ci = cardKey cj)
    (p : Card × Int) (hp : p ∈ order.zip scores) (hpk : cardKey p.1 = cardKey ci) :
    ∃ w, w ∈ reviewedCards order scores today ∧ cardKey w = cardKey ci ∧
      (sessionPersistedDeck deck today order scores)[i]? = some w ∧
      (sessionPersistedDeck deck today order scores)[j]? = some w := by
  have hmem : review_card p.1 p.2 today ∈ reviewedCards order scores today := by
    unfold reviewedCards
    exact List.mem_map_of_mem _ hp
  have hkmem : cardKey (review_card p.1 p.2 today) = cardKey ci := by
    rw [reviewCard_key]; exact hpk
  obtain ⟨w, hw, hwmem, hwk⟩ := cardMap_isSome hmem hkmem
  refine ⟨w, hwmem, hwk, ?_, ?_⟩
  · unfold sessionPersistedDeck mergeDeck
    rw [List.getElem?_map, hi]
    simp [hw]
  · unfold sessionPersistedDeck mergeDeck
    rw [List.getElem?_map, hj]
    simp [← hkey, hw]

/-- Witness for C10: a deck with two equal-key slots of which the first is
reviewed; both slots end up holding the same updated record. -/
theorem claim10_duplicate_keys_merge_witness :
    ∃ w, w ∈ reviewedCards [⟨"f", "b", "2020-01-01", 0, 1, 5/2⟩] [0] ⟨2026, 10, 12⟩ ∧
      cardKey w = cardKey (⟨"f", "b", "2020-01-01", 0, 1, 5/2⟩ : Card) ∧
      (sessionPersistedDeck
        [⟨"f", "b", "2020-01-01", 0, 1, 5/2⟩, ⟨"f", "b", "2030-01-01", 7, 80, 2⟩]
        ⟨2026, 10, 12⟩ [⟨"f", "b", "2020-01-01", 0, 1, 5/2⟩] [0])[0]? = some w ∧
      (sessionPersistedDeck
        [⟨"f", "b", "2020-01-01", 0, 1, 5/2⟩, ⟨"f", "b", "2030-01-01", 7, 80, 2⟩]
        ⟨2026, 10, 12⟩ [⟨"f", "b", "2020-01-01", 0, 1, 5/2⟩] [0])[1]? = some w :=
  claim10_duplicate_keys_merge
    [⟨"f", "b", "2020-01-01", 0, 1, 5/2⟩, ⟨"f", "b", "2030-01-01", 7, 80, 2⟩]
    [⟨"f", "b", "2020-01-01", 0, 1, 5/2⟩] [0] ⟨2026, 10, 12⟩ 0 1
    ⟨"f", "b", "2020-01-01", 0, 1, 5/2⟩ ⟨"f", "b", "2030-01-01", 7, 80, 2⟩
    rfl rfl rfl (⟨"f", "b", "2020-01-01", 0, 1, 5/2⟩, 0) (List.Mem.head _) rfl

/-- C5 counterexample: with two cards sharing the same (front, back) key, a
session over the deck `[A, B, C]` (where `B` duplicates the key of `A` but is
not due) that is cancelled after 1 of its 2 due cards overwrites the not-due,
never-reviewed card `B` (its repetitions slot changes from 7 to 1), so the
persisted deck does not keep the original state of every unreviewed card. -/
theorem claim5_counterexample :
    (dueCards
      [⟨"f", "b", "2020-01-01", 0, 1, 5/2⟩, ⟨"f", "b", "2030-01-01", 7, 80, 2⟩,
        ⟨"g", "c", "2020-01-01", 0, 1, 5/2⟩] (toISO ⟨2026, 10, 12⟩)).length = 2 ∧
    strLe ("2030-01-01") (toISO ⟨2026, 10, 12⟩) = false ∧
    ([(⟨"f", "b", "2020-01-01", 0, 1, 5/2⟩ : Card), ⟨"f", "b", "2030-01-01", 7, 80, 2⟩,
        ⟨"g", "c", "2020-01-01", 0, 1, 5/2⟩][1]?).map Card.repetitions = some 7 ∧
    ((sessionPersistedDeck
        [⟨"f", "b", "2020-01-01", 0, 1, 5/2⟩, ⟨"f", "b", "2030-01-01", 7, 80, 2⟩,
          ⟨"g", "c", "2020-01-01", 0, 1, 5/2⟩] ⟨2026, 10, 12⟩
        (dueCards
          [⟨"f", "b", "2020-01-01", 0, 1, 5/2⟩, ⟨"f", "b", "2030-01-01", 7, 80, 2⟩,
            ⟨"g", "c", "2020-01-01", 0, 1, 5/2⟩] (toISO ⟨2026, 10, 12⟩))
        [5])[1]?).map Card.repetitions = some 1 := by
  refine ⟨?_, ?_, ?_, ?_⟩ <;> decide

/-- C5 (amended with distinct keys): if every card in the deck has a distinct
(front, back) key and the presented order is a permutation of the due cards,
then after the session is stopped (cancelled or completed) with `k` supplied
scores, the persisted deck keeps its length, every scored card sits in the
deck, each deck slot whose card was not among the `k` scored cards is
unchanged, and each slot whose card was scored holds exactly the review result
of that card with its score. -/
theorem claim5_session_merge (deck : List Card) (today : Date)
    (order : List Card) (scores : List Int)
    (hnd : (deck.map cardKey).Nodup)
    (hperm : order.Perm (dueCards deck (toISO today))) :
    (sessionPersistedDeck deck today order scores).length = deck.length ∧
    (∀ p ∈ order.zip scores, ∃ i : ℕ, deck[i]? = some p.1) ∧
    ∀ (i : ℕ) (c : Card), deck[i]? = some c →
      ((∀ p ∈ order.zip scores, p.1 ≠ c) →
        (sessionPersistedDeck deck today order scores)[i]? = some c) ∧
      (∀ p ∈ order.zip scores, p.1 = c →
        (sessionPersistedDeck deck today order scores)[i]? =
          some (review_card c p.2 today)) := by
  have hsubdeck : ∀ a : Card, a ∈ order → a ∈ deck := by
    intro a ha
    have : a ∈ dueCards deck (toISO today) := hperm.mem_iff.mp ha
    exact (List.mem_filter.mp this).1
  have hinj : ∀ x ∈ deck, ∀ y ∈ deck, cardKey x = cardKey y → x = y :=
    List.inj_on_of_nodup_map hnd
  have hdecknd : deck.Nodup := List.Nodup.of_map cardKey hnd
  have hordernd : order.Nodup := by
    have : (dueCards deck (toISO today)).Nodup := List.Nodup.filter _ hdecknd
    exact hperm.nodup_iff.mpr this
  refine ⟨by simp [sessionPersistedDeck, mergeDeck], ?_, ?_⟩
  · intro p hp
    have : p.1 ∈ deck := hsubdeck p.1 (List.of_mem_zip hp).1
    exact List.mem_iff_getElem?.mp this
  · intro i c hc
    have hcdeck : c ∈ deck := List.getElem?_mem hc
    constructor
    · intro hnone
      have hmapnone : cardMap (reviewedCards order scores today) (cardKey c) = none := by
        rw [cardMap_none_iff]
        intro v hv
        obtain ⟨p, hp, rfl⟩ := List.mem_map.mp hv
        rw [reviewCard_key]
        intro hkeq
        have hp1deck : p.1 ∈ deck := hsubdeck p.1 (List.of_mem_zip hp).1
        exact hnone p hp (hinj p.1 hp1deck c hcdeck hkeq)
      unfold sessionPersistedDeck mergeDeck
      rw [List.getElem?_map, hc]
      simp [hmapnone]
    · intro p hp hpc
      have hu : review_card c p.2 today ∈ reviewedCards order scores today := by
        unfold reviewedCards
        exact List.mem_map.mpr ⟨p, hp, by rw [hpc]⟩
      have hmapsome : cardMap (reviewedCards order scores today) (cardKey c) =
          some (review_card c p.2 today) := by
        apply cardMap_eq_some_of_unique hu (reviewCard_key c p.2 today)
        intro v hv hvk
        obtain ⟨p2, hp2, rfl⟩ := List.mem_map.mp hv
        rw [reviewCard_key] at hvk
        have hp21deck : p2.1 ∈ deck := hsubdeck p2.1 (List.of_mem_zip hp2).1
        have hp21c : p2.1 = c := hinj p2.1 hp21deck c hcdeck hvk
        have : p2 = p := zip_nodup_fst order scores hordernd p2 p hp2 hp (by rw [hp21c, hpc])
        rw [this, hpc]
      unfold sessionPersistedDeck mergeDeck
      rw [List.getElem?_map, hc]
      simp [hmapsome]

/-- Witness for C5 (amended) on a concrete two-card deck with one due card. -/
theorem claim5_session_merge_witness :
    (sessionPersistedDeck
      [⟨"f", "b", "2020-01-01", 0, 1, 5/2⟩, ⟨"g", "c", "2030-01-01", 7, 80, 2⟩]
      ⟨2026, 10, 12⟩
      (dueCards
        [⟨"f", "b", "2020-01-01", 0, 1, 5/2⟩, ⟨"g", "c", "2030-01-01", 7, 80, 2⟩]
        (toISO ⟨2026, 10, 12⟩)) [5]).length =
      ([⟨"f", "b", "2020-01-01", 0, 1, 5/2⟩, ⟨"g", "c", "2030-01-01", 7, 80, 2⟩] :
        List Card).length :=
  (claim5_session_merge
    [⟨"f", "b", "2020-01-01", 0, 1, 5/2⟩, ⟨"g", "c", "2030-01-01", 7, 80, 2⟩]
    ⟨2026, 10, 12⟩
    (dueCards [⟨"f", "b", "2020-01-01", 0, 1, 5/2⟩, ⟨"g", "c", "2030-01-01", 7, 80, 2⟩]
      (toISO ⟨2026, 10, 12⟩)) [5] (by decide) (List.Perm.refl _)).1

/-! ### Lexicographic string order on fixed-width ISO dates -/

theorem char_toNat_inj {a b : Char} (h : a.toNat = b.toNat) : a = b :=
  Char.ext (UInt32.ext h)

theorem charListLe_refl : ∀ l : List Char, charListLe l l = true := by
  intro l
  induction l with
  | nil => rfl
  | cons a as ih => simp [charListLe, ih]

theorem charListLe_of_lt :
    ∀ {x y : List Char}, charListLt x y = true → charListLe x y = true := by
  intro x
  induction x with
  | nil => intro y _; cases y <;> rfl
  | cons a as ih =>
      intro y h
      cases y with
      | nil => simp [charListLt] at h
      | cons b bs =>
          by_cases h1 : a.toNat < b.toNat
          · simp [charListLe, h1]
          · by_cases h2 : b.toNat < a.toNat
            · simp [charListLt, h1, h2] at h
            · simp only [charListLt, if_neg h1, if_neg h2] at h
              simp [charListLe, h1, h2, ih h]

theorem charListLe_eq_false_of_lt :
    ∀ {x y : List Char}, charListLt x y = true → charListLe y x = false := by
  intro x
  induction x with
  | nil =>
      intro y h
      cases y with
      | nil => simp [charListLt] at h
      | cons b bs => rfl
  | cons a as ih =>
      intro y h
      cases y with
      | nil => simp [charListLt] at h
      | cons b bs =>
          by_cases h1 : a.toNat < b.toNat
          · have hba : ¬ b.toNat < a.toNat := by omega
            simp [charListLe, hba, h1]
          · by_cases h2 : b.toNat < a.toNat
            · simp [charListLt, h1, h2] at h
            · simp only [charListLt, if_neg h1, if_neg h2] at h
              simp [charListLe, h1, h2, ih h]

theorem charListLt_app_iff :
    ∀ (l1 l2 t1 t2 : List Char), l1.length = l2.length →
      (charListLt (l1 ++ t1) (l2 ++ t2) = true ↔
        charListLt l1 l2 = true ∨ (l1 = l2 ∧ charListLt t1 t2 = true)) := by
  intro l1
  induction l1 with
  | nil =>
      intro l2 t1 t2 hlen
      cases l2 with
      | nil => simp [charListLt]
      | cons b bs => simp at hlen
  | cons a as ih =>
      intro l2 t1 t2 hlen
      cases l2 with
      | nil => simp at hlen
      | cons b bs =>
          simp only [List.length_cons, Nat.succ.injEq] at hlen
          simp only [List.cons_append, charListLt]
          by_cases h1 : a.toNat < b.toNat
          · simp [if_pos h1]
          · by_cases h2 : b.toNat < a.toNat
            · have hab : a ≠ b := fun h => by subst h; omega
              simp [if_neg h1, if_pos h2, hab]
            · have hab : a = b := char_toNat_inj (by omega)
              subst hab
              simp only [if_neg h1, if_neg h2, List.append_eq]
              rw [ih bs t1 t2 hlen]
              simp

theorem charListEq_app_iff :
    ∀ (l1 l2 t1 t2 : List Char), l1.length = l2.length →
      ((l1 ++ t1 = l2 ++ t2) ↔ (l1 = l2 ∧ t1 = t2)) := by
  intro l1 l2 t1 t2 hlen
  constructor
  · intro h
    exact List.append_inj h hlen
  · rintro ⟨rfl, rfl⟩
    rfl

theorem digitsFix_length : ∀ (n v : Nat), (digitsFix n v).length = n := by
  intro n
  induction n with
  | zero => intro v; rfl
  | succ m ih => intro v; simp [digitsFix, ih]

theorem dChar_mod (a : Nat) : dChar (a % 10) = dChar a := by
  have : a % 10 % 10 = a % 10 := by omega
  simp [dChar, this]

theorem dChar_toNat_lt_iff (a b : Nat) :
    ((dChar a).toNat < (dChar b).toNat) ↔ a % 10 < b % 10 := by
  have key : ∀ x y : Fin 10,
      (((dChar (x : Nat)).toNat < (dChar (y : Nat)).toNat) ↔ (x : Nat) < (y : Nat)) := by
    decide
  have h10a : a % 10 < 10 := Nat.mod_lt _ (by omega)
  have h10b : b % 10 < 10 := Nat.mod_lt _ (by omega)
  have := key ⟨a % 10, h10a⟩ ⟨b % 10, h10b⟩
  simpa [dChar_mod] using this

theorem dChar_eq_iff (a b : Nat) : (dChar a = dChar b) ↔ a % 10 = b % 10 := by
  have key : ∀ x y : Fin 10, ((dChar (x : Nat) = dChar (y : Nat)) ↔ x = y) := by decide
  have h10a : a % 10 < 10 := Nat.mod_lt _ (by omega)
  have h10b : b % 10 < 10 := Nat.mod_lt _ (by omega)
  have := key ⟨a % 10, h10a⟩ ⟨b % 10, h10b⟩
  simp only [dChar_mod] at this
  rw [this]
  constructor
  · intro h; exact congrArg Fin.val (by exact_mod_cast h)
  · intro h; exact Fin.ext h

theorem charListLt_singleton (x y : Char) :
    charListLt [x] [y] = true ↔ x.toNat < y.toNat := by
  by_cases h1 : x.toNat < y.toNat
  · simp [charListLt, h1]
  · by_cases h2 : y.toNat < x.toNat
    · simp [charListLt, h1, h2]
    · simp [charListLt, h1, h2]

theorem digitsFix_eq_iff : ∀ (n a b : Nat), a < 10 ^ n → b < 10 ^ n →
    (digitsFix n a = digitsFix n b ↔ a = b) := by
  intro n
  induction n with
  | zero =>
      intro a b ha hb
      simp [pow_zero] at ha hb
      simp [digitsFix]
      omega
  | succ m ih =>
      intro a b ha hb
      have ha10 : a / 10 < 10 ^ m := by
        rw [Nat.div_lt_iff_lt_mul (by omega)]
        calc a < 10 ^ (m + 1) := ha
        _ = 10 ^ m * 10 := by ring
      have hb10 : b / 10 < 10 ^ m := by
        rw [Nat.div_lt_iff_lt_mul (by omega)]
        calc b < 10 ^ (m + 1) := hb
        _ = 10 ^ m * 10 := by ring
      simp only [digitsFix]
      rw [charListEq_app_iff _ _ _ _ (by rw [digitsFix_length, digitsFix_length])]
      rw [ih _ _ ha10 hb10]
      simp only [List.cons.injEq, and_true]
      rw [dChar_eq_iff]
      omega

theorem digitsFix_lt_iff : ∀ (n a b : Nat), a < 10 ^ n → b < 10 ^ n →
    (charListLt (digitsFix n a) (digitsFix n b) = true ↔ a < b) := by
  intro n
  induction n with
  | zero =>
      intro a b ha hb
      simp [pow_zero] at ha hb
      simp [digitsFix, charListLt]
      omega
  | succ m ih =>
      intro a b ha hb
      have ha10 : a / 10 < 10 ^ m := by
        rw [Nat.div_lt_iff_lt_mul (by omega)]
        calc a < 10 ^ (m + 1) := ha
        _ = 10 ^ m * 10 := by ring
      have hb10 : b / 10 < 10 ^ m := by
        rw [Nat.div_lt_iff_lt_mul (by omega)]
        calc b < 10 ^ (m + 1) := hb
        _ = 10 ^ m * 10 := by ring
      simp only [digitsFix]
      rw [charListLt_app_iff _ _ _ _ (by rw [digitsFix_length, digitsFix_length])]
      rw [ih _ _ ha10 hb10]
      rw [digitsFix_eq_iff _ _ _ ha10 hb10]
      rw [charListLt_singleton]
      rw [dChar_toNat_lt_iff]
      omega

/-! ### Calendar lemmas -/

theorem charListLt_cons_same (c : Char) (x y : List Char) :
    charListLt (c :: x) (c :: y) = charListLt x y := by
  simp [charListLt]

theorem daysInMonth_le (y m : Nat) : daysInMonth y m ≤ 31 := by
  unfold daysInMonth
  split_ifs <;> omega

theorem daysInMonth_pos (y m : Nat) : 1 ≤ daysInMonth y m := by
  unfold daysInMonth
  split_ifs <;> omega

/-- On valid dates, the lexicographic order of the `YYYY-MM-DD` strings is the
chronological order of the dates. -/
theorem isoLt_iff {a b : Date} (ha : dateValid a) (hb : dateValid b) :
    (charListLt (isoChars a) (isoChars b) = true ↔ dateLt a b) := by
  obtain ⟨⟨hay, ham1, ham2, had1, had2⟩, hay2⟩ := ha
  obtain ⟨⟨hby, hbm1, hbm2, hbd1, hbd2⟩, hby2⟩ := hb
  have hya : a.year < 10 ^ 4 := by norm_num; omega
  have hyb : b.year < 10 ^ 4 := by norm_num; omega
  have hma : a.month < 10 ^ 2 := by norm_num; omega
  have hmb : b.month < 10 ^ 2 := by norm_num; omega
  have hda : a.day < 10 ^ 2 := by
    have := daysInMonth_le a.year a.month; norm_num; omega
  have hdb : b.day < 10 ^ 2 := by
    have := daysInMonth_le b.year b.month; norm_num; omega
  unfold isoChars
  rw [charListLt_app_iff _ _ _ _ (by rw [digitsFix_length, digitsFix_length])]
  rw [digitsFix_lt_iff _ _ _ hya hyb, digitsFix_eq_iff _ _ _ hya hyb]
  rw [charListLt_cons_same]
  rw [charListLt_app_iff _ _ _ _ (by rw [digitsFix_length, digitsFix_length])]
  rw [digitsFix_lt_iff _ _ _ hma hmb, digitsFix_eq_iff _ _ _ hma hmb]
  rw [charListLt_cons_same]
  rw [digitsFix_lt_iff _ _ _ hda hdb]
  unfold dateLt
  tauto

theorem strLt_toISO_iff {a b : Date} (ha : dateValid a) (hb : dateValid b) :
    (strLt (toISO a) (toISO b) = true ↔ dateLt a b) :=
  isoLt_iff ha hb

theorem dateLt_nextDay (d : Date) : dateLt d (nextDay d) := by
  unfold nextDay dateLt
  split_ifs <;> simp <;> omega

theorem dateLt_trans {a b c : Date} (h1 : dateLt a b) (h2 : dateLt b c) : dateLt a c := by
  unfold dateLt at *
  omega

theorem dateLt_iterate_nextDay (d : Date) (k : Nat) (hk : 1 ≤ k) :
    dateLt d (nextDay^[k] d) := by
  induction k with
  | zero => omega
  | succ m ih =>
      rcases Nat.eq_or_lt_of_le hk with h | h
      · rw [← h]
        simpa using dateLt_nextDay d
      · have hm : 1 ≤ m := by omega
        rw [Function.iterate_succ_apply']
        exact dateLt_trans (ih hm) (dateLt_nextDay _)

theorem dateOk_nextDay {d : Date} (h : dateOk d) : dateOk (nextDay d) := by
  obtain ⟨h1, h2, h3, h4, h5⟩ := h
  have hp1 := daysInMonth_pos d.year (d.month + 1)
  have hp2 := daysInMonth_pos (d.year + 1) 1
  unfold nextDay
  split_ifs with hd hm
  · show 1 ≤ d.year ∧ 1 ≤ d.month ∧ d.month ≤ 12 ∧ 1 ≤ d.day + 1 ∧
      d.day + 1 ≤ daysInMonth d.year d.month
    omega
  · show 1 ≤ d.year ∧ 1 ≤ d.month + 1 ∧ d.month + 1 ≤ 12 ∧ 1 ≤ 1 ∧
      1 ≤ daysInMonth d.year (d.month + 1)
    omega
  · show 1 ≤ d.year + 1 ∧ 1 ≤ 1 ∧ 1 ≤ 12 ∧ 1 ≤ 1 ∧ 1 ≤ daysInMonth (d.year + 1) 1
    omega

theorem dateOk_iterate_nextDay {d : Date} (h : dateOk d) (k : Nat) :
    dateOk (nextDay^[k] d) := by
  induction k with
  | zero => simpa using h
  | succ m ih =>
      rw [Function.iterate_succ_apply']
      exact dateOk_nextDay ih

theorem dateLt_addDays (d : Date) (n : Int) (hn : 1 ≤ n) : dateLt d (addDays d n) := by
  unfold addDays
  rw [if_pos (by omega : (0 : Int) ≤ n)]
  exact dateLt_iterate_nextDay d n.toNat (by omega)

theorem dateOk_addDays {d : Date} (h : dateOk d) (n : Int) (hn : 0 ≤ n) :
    dateOk (addDays d n) := by
  unfold addDays
  rw [if_pos hn]
  exact dateOk_iterate_nextDay h n.toNat

/-! ### Due-date claims -/

/-- C4: under lexicographic string comparison of ISO dates, the due-card
selection returns exactly the deck cards whose next review date string is at
most today's; an equal date is due, a smaller one is due, a larger one is
not. -/
theorem claim4_due_selection (deck : List Card) (todayIso : String) :
    (∀ c : Card, c ∈ dueCards deck todayIso ↔
      (c ∈ deck ∧ strLe c.next_review_date todayIso = true)) ∧
    (∀ c ∈ deck, c.next_review_date = todayIso → c ∈ dueCards deck todayIso) ∧
    (∀ c ∈ deck, strLt c.next_review_date todayIso = true → c ∈ dueCards deck todayIso) ∧
    (∀ c ∈ deck, strLt todayIso c.next_review_date = true → c ∉ dueCards deck todayIso) := by
  refine ⟨?_, ?_, ?_, ?_⟩
  · intro c
    simp [dueCards, List.mem_filter]
  · intro c hc he
    rw [dueCards, List.mem_filter]
    refine ⟨hc, ?_⟩
    rw [he]
    exact charListLe_refl _
  · intro c hc hlt
    rw [dueCards, List.mem_filter]
    exact ⟨hc, charListLe_of_lt hlt⟩
  · intro c hc hgt hdue
    rw [dueCards, List.mem_filter] at hdue
    have h2 : strLe c.next_review_date todayIso = false := charListLe_eq_false_of_lt hgt
    rw [hdue.2] at h2
    cases h2

/-- Witness for C4: a card dated today is selected, a card dated in the
future is not. -/
theorem claim4_due_selection_witness :
    ((⟨"f", "b", "2026-10-12", 0, 1, 2⟩ : Card) ∈
      dueCards [⟨"f", "b", "2026-10-12", 0, 1, 2⟩, ⟨"g", "c", "2030-01-01", 0, 1, 2⟩]
        "2026-10-12") ∧
    ((⟨"g", "c", "2030-01-01", 0, 1, 2⟩ : Card) ∉
      dueCards [⟨"f", "b", "2026-10-12", 0, 1, 2⟩, ⟨"g", "c", "2030-01-01", 0, 1, 2⟩]
        "2026-10-12") :=
  ⟨(claim4_due_selection
      [⟨"f", "b", "2026-10-12", 0, 1, 2⟩, ⟨"g", "c", "2030-01-01", 0, 1, 2⟩]
      "2026-10-12").2.1 _ (List.Mem.head _) rfl,
   (claim4_due_selection
      [⟨"f", "b", "2026-10-12", 0, 1, 2⟩, ⟨"g", "c", "2030-01-01", 0, 1, 2⟩]
      "2026-10-12").2.2.2 _ (List.Mem.tail _ (List.Mem.head _)) (by decide)⟩

theorem one_le_reviewCard_interval (card : Card) (q : Int) (today : Date)
    (he : 13/10 ≤ card.ease_factor) (hi : 1 ≤ card.interval) :
    1 ≤ (review_card card q today).interval := by
  simp only [review_card]
  split_ifs with h1 h2 h3
  · simp
  · simp
  · simp
  · simp only []
    exact one_le_pyRound (one_le_intCast_mul hi he)

/-- The stored next review date of a reviewed card is today plus the new
interval, in ISO form. -/
theorem reviewCard_next_date (card : Card) (q : Int) (today : Date) :
    (review_card card q today).next_review_date =
      toISO (addDays today (review_card card q today).interval) := rfl

/-- C9 counterexample: a card with interval 1 but ease factor 0.2 (below the
data-model floor of 1.3) and repetitions 2, reviewed with the valid score 3,
gets interval `round(1 * 0.2) = 0`, so its next review date equals today — it
is not strictly later — and the card is selected as due again on the very
same day. So interval at least 1 alone does not make the claim true. -/
theorem claim9_counterexample :
    1 ≤ (⟨"f", "b", "2026-10-12", 2, 1, 1/5⟩ : Card).interval ∧
    validScore 3 ∧
    (review_card ⟨"f", "b", "2026-10-12", 2, 1, 1/5⟩ 3 ⟨2026, 10, 12⟩).next_review_date =
      toISO ⟨2026, 10, 12⟩ ∧
    strLt (toISO ⟨2026, 10, 12⟩)
      (review_card ⟨"f", "b", "2026-10-12", 2, 1, 1/5⟩ 3 ⟨2026, 10, 12⟩).next_review_date =
        false ∧
    dueCards [review_card ⟨"f", "b", "2026-10-12", 2, 1, 1/5⟩ 3 ⟨2026, 10, 12⟩]
      (toISO ⟨2026, 10, 12⟩) =
      [review_card ⟨"f", "b", "2026-10-12", 2, 1, 1/5⟩ 3 ⟨2026, 10, 12⟩] := by
  have hf : ⌊(1/5 : ℚ)⌋ = 0 := by
    rw [Int.floor_eq_iff] <;> norm_num
  have hr : pyRound (1/5 : ℚ) = 0 := by
    simp only [pyRound, hf]
    rw [if_pos (by norm_num : (1/5 : ℚ) - ((0 : ℤ) : ℚ) < 1/2)]
  have hint : (review_card (⟨"f", "b", "2026-10-12", 2, 1, 1/5⟩ : Card) 3
      ⟨2026, 10, 12⟩).interval = 0 := by
    simp only [review_card]
    norm_num
    exact hr
  have hnext : (review_card (⟨"f", "b", "2026-10-12", 2, 1, 1/5⟩ : Card) 3
      ⟨2026, 10, 12⟩).next_review_date = toISO (⟨2026, 10, 12⟩ : Date) := by
    rw [reviewCard_next_date, hint]
    decide
  have hle : strLe (review_card (⟨"f", "b", "2026-10-12", 2, 1, 1/5⟩ : Card) 3
      ⟨2026, 10, 12⟩).next_review_date (toISO (⟨2026, 10, 12⟩ : Date)) = true := by
    rw [hnext]; decide
  refine ⟨by decide, by decide, hnext, ?_, ?_⟩
  · rw [hnext]; decide
  · unfold dueCards
    rw [List.filter_eq_self]
    intro a ha
    rw [List.mem_singleton] at ha
    subst ha
    exact hle

/-- C9 (amended): a card with the data-model invariants (ease factor at least
1.3 as well as interval at least 1) reviewed today with any valid score, and
with the resulting date still inside the representable year range, gets a
next review date strictly after today, so it is not selected as due again on
the same day. -/
theorem claim9_reviewed_not_due_again (card : Card) (q : Int) (today : Date)
    (hv : validScore q) (he : 13/10 ≤ card.ease_factor) (hi : 1 ≤ card.interval)
    (htoday : dateValid today)
    (hrange : (addDays today (review_card card q today).interval).year ≤ 9999) :
    strLt (toISO today) (review_card card q today).next_review_date = true ∧
    dueCards [review_card card q today] (toISO today) = [] := by
  have hint : 1 ≤ (review_card card q today).interval :=
    one_le_reviewCard_interval card q today he hi
  have hok : dateOk (addDays today (review_card card q today).interval) :=
    dateOk_addDays htoday.1 _ (by omega)
  have hlt : dateLt today (addDays today (review_card card q today).interval) :=
    dateLt_addDays today _ hint
  have hstr : strLt (toISO today)
      (toISO (addDays today (review_card card q today).interval)) = true :=
    (strLt_toISO_iff htoday ⟨hok, hrange⟩).mpr hlt
  constructor
  · rw [reviewCard_next_date]
    exact hstr
  · have hfalse : strLe (review_card card q today).next_review_date (toISO today) = false := by
      rw [reviewCard_next_date]
      exact charListLe_eq_false_of_lt hstr
    simp [dueCards, hfalse]

/-- Witness for C9 at a concrete fresh card reviewed today with score 4. -/
theorem claim9_reviewed_not_due_again_witness :
    strLt (toISO ⟨2026, 10, 12⟩)
      (review_card ⟨"f", "b", "2026-10-12", 0, 1, 5/2⟩ 4 ⟨2026, 10, 12⟩).next_review_date =
        true ∧
    dueCards [review_card ⟨"f", "b", "2026-10-12", 0, 1, 5/2⟩ 4 ⟨2026, 10, 12⟩]
      (toISO ⟨2026, 10, 12⟩) = [] :=
  claim9_reviewed_not_due_again ⟨"f", "b", "2026-10-12", 0, 1, 5/2⟩ 4 ⟨2026, 10, 12⟩
    (by decide) (by norm_num) (by decide) (by decide) (by decide)

/-- C7 counterexample: a fresh card (defaults, ease 2.5) reviewed today with
score 4 keeps its ease factor exactly 2.5 — the score-4 ease delta is
`0.1 - 1*(0.08 + 1*0.02) = 0` — so the ease factor is not strictly greater
than 2.5 as claimed. -/
theorem claim7_counterexample :
    (review_card (newCard ("f") ("b") ⟨2026, 10, 12⟩) 4 ⟨2026, 10, 12⟩).ease_factor = 5/2 ∧
    ¬ (5/2 < (review_card (newCard ("f") ("b") ⟨2026, 10, 12⟩) 4 ⟨2026, 10, 12⟩).ease_factor) := by
  have h : (review_card (newCard ("f") ("b") ⟨2026, 10, 12⟩) 4 ⟨2026, 10, 12⟩).ease_factor = 5/2 := by
    simp [review_card, newCard, DEFAULT_EASE_FACTOR]
    norm_num
  exact ⟨h, by rw [h]; exact lt_irrefl _⟩

theorem charListLe_eq_not_lt : ∀ x y : List Char, charListLe x y = ! charListLt y x := by
  intro x
  induction x with
  | nil => intro y; cases y <;> rfl
  | cons a as ih =>
      intro y
      cases y with
      | nil => rfl
      | cons b bs =>
          by_cases h1 : a.toNat < b.toNat
          · have h2 : ¬ b.toNat < a.toNat := by omega
            simp [charListLe, charListLt, h1, h2]
          · by_cases h2 : b.toNat < a.toNat
            · simp [charListLe, charListLt, h1, h2]
            · simp [charListLe, charListLt, h1, h2, ih bs]

theorem charListLt_iff_lex : ∀ x y : List Char,
    charListLt x y = true ↔ List.Lex (· < ·) x y := by
  intro x
  induction x with
  | nil =>
      intro y
      cases y with
      | nil =>
          constructor
          · intro h; cases h
          · intro h; cases h
      | cons b bs =>
          simp only [charListLt]
          constructor
          · intro _; exact List.Lex.nil
          · intro _; trivial
  | cons a as ih =>
      intro y
      cases y with
      | nil =>
          constructor
          · intro h; simp [charListLt] at h
          · intro h; cases h
      | cons b bs =>
          by_cases h1 : a.toNat < b.toNat
          · simp only [charListLt, if_pos h1]
            constructor
            · intro _; exact List.Lex.rel h1
            · intro _; trivial
          · by_cases h2 : b.toNat < a.toNat
            · simp only [charListLt, if_neg h1, if_pos h2]
              constructor
              · intro h; cases h
              · intro h
                cases h with
                | cons h3 => omega
                | rel h3 => exact absurd h3 h1
            · have hab : a = b := char_toNat_inj (by omega)
              subst hab
              simp only [charListLt, if_neg h1, if_neg h2]
              rw [ih bs]
              constructor
              · exact List.Lex.cons
              · intro h
                cases h with
                | cons h3 => exact h3
                | rel h3 => exact absurd h3 h1

/-- The embedded Python string order coincides with Lean's lexicographic
order on `String`. -/
theorem strLe_iff_le (a b : String) : strLe a b = true ↔ a ≤ b := by
  rw [show a ≤ b ↔ ¬ b < a from not_lt.symm]
  rw [String.lt_iff_toList_lt]
  rw [show (String.toList b < String.toList a) ↔ List.Lex (· < ·) b.data a.data from
    Iff.rfl]
  rw [← charListLt_iff_lex]
  rw [show strLe a b = ! charListLt b.data a.data from charListLe_eq_not_lt a.data b.data]
  cases charListLt b.data a.data <;> simp

/-- The embedded Python strict string order coincides with Lean's. -/
theorem strLt_iff_lt (a b : String) : strLt a b = true ↔ a < b := by
  rw [String.lt_iff_toList_lt]
  rw [show (String.toList a < String.toList b) ↔ List.Lex (· < ·) a.data b.data from
    Iff.rfl]
  exact charListLt_iff_lex a.data b.data

/-- C7 (amended): a card created today with the default state, reviewed with
score 4 (Good), ends with repetitions 1, interval 1, next review date
tomorrow, and its ease factor unchanged at exactly 2.5. -/
theorem claim7_new_card_good_review (front back : String) (today : Date) :
    (review_card (newCard front back today) 4 today).repetitions = 1 ∧
    (review_card (newCard front back today) 4 today).interval = 1 ∧
    (review_card (newCard front back today) 4 today).next_review_date =
      toISO (addDays today 1) ∧
    (review_card (newCard front back today) 4 today).ease_factor = 5/2 := by
  refine ⟨?_, ?_, ?_, ?_⟩ <;>
    simp [review_card, newCard, DEFAULT_EASE_FACTOR] <;> norm_num

end TermSrs
